import Mathlib

/-!
Verification of the news-monitoring backend (masterback).

This file gives a shallow embedding, translated from the Python sources, of
the parts of the program that the specification's testable properties talk
about:

* `app/services/news_fetcher.py` : `clean_link`, `_dedupe`,
  `search_google_news_multi_relaxed` (the retrieval cascade);
* `app/services/rank.py` : `score_item`;
* `app/services/query_builder.py` : `build_query_variants`;
* `app/services/ingest_auto.py` : the persistence step of
  `kickoff_campaign_ingest`;
* `app/scheduler.py` : the persistence step of `run_alert`, and the
  auto-ingestion quota logic (`_reset_quota_if_needed`, `_quota_for_plan`,
  `_should_run_now`, `campaign_tick`).

Modelling conventions:

* Python dictionaries produced by the fetchers are modelled by the `Item`
  structure whose fields are `Option` valued, `dict.get` being `Option.getD`.
* Python `str.lower` is modelled character-wise (`Char.toLower`, exact on
  ASCII, which is all the code's keyword tables use); `str.strip` is
  `pyStrip`; the substring test `a in b` is `strIn`.
* Timestamps are modelled as `Nat` seconds of local (America/Monterrey)
  time; a calendar date is the day number `t / 86400`.
* Scores are sums of the literals 5.0, 3.0, 2.0, 1.0, which float addition
  represents exactly, so they are modelled as `Nat`.
* Network fetches are side effects; the cascade is therefore parameterised
  by total oracle functions giving each provider pass's result, and it
  returns the trace of provider calls it performs (pass index and
  `days_back` used) together with its ranked output.
* `sha256` keying of URLs in `run_alert` is modelled by keying on the URL
  itself (collision-free abstraction of an injective digest).
-/

/-- A fetched candidate item: models the Python dicts flowing through the
pipeline (`{title, url, summary, published_at, source}` from the fetchers;
`score_item` reads the keys `title` and `snippet`).  Absent keys are `none`. -/
structure Item where
  title : Option String := none
  url : Option String := none
  snippet : Option String := none
  summary : Option String := none
  publishedAt : Option Int := none
  source : Option String := none
  deriving Repr, DecidableEq

/-- Character-wise lower-casing of a string (Python `str.lower`, exact on
ASCII). -/
def pyLower (s : String) : String := String.mk (s.data.map Char.toLower)

/-- Is `c` whitespace for Python `str.strip` (ASCII fragment)? -/
def isPySpace (c : Char) : Bool :=
  c == ' ' || c == '\t' || c == '\n' || c == '\r' || c == '\x0b' || c == '\x0c'

/-- Python `str.strip` with no argument: drop whitespace from both ends
(kept kernel-reducible, unlike the library's trim). -/
def pyStrip (s : String) : String :=
  String.mk (((s.data.dropWhile isPySpace).reverse.dropWhile isPySpace).reverse)

/-- Does `n` match a leading segment of `h`? (helper for the substring test). -/
def leadMatch : List Char → List Char → Bool
  | [], _ => true
  | _ :: _, [] => false
  | n :: ns, h :: hs => n == h && leadMatch ns hs

/-- Does `needle` occur contiguously in `hay`? (helper for the substring
test). -/
def hasSub (needle : List Char) : List Char → Bool
  | [] => needle.isEmpty
  | h :: t => leadMatch needle (h :: t) || hasSub needle t

/-- Python's substring test `needle in hay`. -/
def strIn (needle hay : String) : Bool := hasSub needle.data hay.data

/-- Python's `str.endswith`. -/
def endsWithS (s suffx : String) : Bool := leadMatch suffx.data.reverse s.data.reverse

/-- Split a character list at the first occurrence of `sep`; `none` when
`sep` does not occur. -/
def splitFirst (sep : Char) : List Char → List Char × Option (List Char)
  | [] => ([], none)
  | c :: t =>
    if c == sep then ([], some t)
    else
      let p := splitFirst sep t
      (c :: p.1, p.2)

/-- Split a character list at every occurrence of `sep`. -/
def splitAll (sep : Char) : List Char → List (List Char)
  | [] => [[]]
  | c :: t =>
    if c == sep then [] :: splitAll sep t
    else
      match splitAll sep t with
      | [] => [[c]]
      | f :: r => (c :: f) :: r

/-- Value of a hexadecimal digit, if any (for percent-decoding). -/
def hexVal (c : Char) : Option Nat :=
  if '0' ≤ c ∧ c ≤ '9' then some (c.toNat - '0'.toNat)
  else if 'a' ≤ c ∧ c ≤ 'f' then some (c.toNat - 'a'.toNat + 10)
  else if 'A' ≤ c ∧ c ≤ 'F' then some (c.toNat - 'A'.toNat + 10)
  else none

/-- Python `urllib.parse.unquote_plus` on the ASCII fragment: `+` becomes a
space and `%XX` hex escapes are decoded; malformed escapes are kept
verbatim, as CPython does. -/
def unquotePlus : List Char → List Char
  | [] => []
  | '%' :: a :: b :: rest =>
    match hexVal a, hexVal b with
    | some x, some y => Char.ofNat (16 * x + y) :: unquotePlus rest
    | _, _ => '%' :: unquotePlus (a :: b :: rest)
  | '+' :: rest => ' ' :: unquotePlus rest
  | c :: rest => c :: unquotePlus rest

/-- Is `c` legal inside a URL scheme after the first letter? -/
def isSchemeChar (c : Char) : Bool := c.isAlphanum || c == '+' || c == '-' || c == '.'

/-- Strip a leading `scheme:` as CPython `urlsplit` does: only when the text
before the first colon is a letter followed by scheme characters. -/
def splitScheme (l : List Char) : List Char :=
  match splitFirst ':' l with
  | (_, none) => l
  | (pre, some rest) =>
    match pre with
    | [] => l
    | c0 :: cs => if c0.isAlpha && cs.all isSchemeChar then rest else l

/-- Take the network-location part (up to the next `/` or `?`). -/
def takeNetloc : List Char → List Char × List Char
  | [] => ([], [])
  | c :: t =>
    if c == '/' || c == '?' then ([], c :: t)
    else
      let p := takeNetloc t
      (c :: p.1, p.2)

/-- The parts of a parsed URL that `clean_link` consults. -/
structure UrlParts where
  netloc : String
  query : String
  deriving Repr, DecidableEq

/-- The fragment of CPython `urllib.parse.urlparse` that `clean_link` uses:
drop the `#fragment`, strip a well-formed `scheme:`, read the netloc after
`//`, and take the query after the first `?`. -/
def urlparse (url : String) : UrlParts :=
  let noFrag := (splitFirst '#' url.data).1
  let rest := splitScheme noFrag
  let p :=
    match rest with
    | '/' :: '/' :: t => takeNetloc t
    | _ => (([] : List Char), rest)
  let q := (splitFirst '?' p.2).2.getD []
  ⟨String.mk p.1, String.mk q⟩

/-- CPython `urllib.parse.parse_qs` with default options, flattened to the
ordered list of decoded (name, value) pairs: fields split on `&`, empty
fields and fields without `=` skipped, blank values dropped
(`keep_blank_values=False`), names and values percent-plus-decoded.
`qs[name][0]` of the Python dict is the first pair here with that name. -/
def parse_qs (query : String) : List (String × String) :=
  (splitAll '&' query.data).foldr
    (fun field acc =>
      match field with
      | [] => acc
      | _ :: _ =>
        match splitFirst '=' field with
        | (_, none) => acc
        | (_, some []) => acc
        | (name, some (v :: vs)) =>
          (String.mk (unquotePlus name), String.mk (unquotePlus (v :: vs))) :: acc)
    []

/-- Embeds `clean_link` (`app/services/news_fetcher.py`): when the parsed
host ends with `news.google.com` and the query has a non-empty `url`
parameter, return that parameter's first value; in every other case
(including parse fallout, which the total parser model absorbs) return the
input unchanged. -/
def clean_link (url : String) : String :=
  let parsed := urlparse url
  if endsWithS parsed.netloc "news.google.com" then
    match (parse_qs parsed.query).find? (fun p => p.1 == "url") with
    | some p => p.2
    | none => url
  else url

/-- First-seen deduplication with key extraction and a `seen` accumulator:
keep an element exactly when its key is non-empty and not seen yet.  This is
the loop shape shared by `_dedupe` (both copies) and the `add` helper of
`build_query_variants`. -/
def dedupKeyedAux (key : α → String) : List String → List α → List α
  | _, [] => []
  | seen, x :: rest =>
    let k := key x
    if k ≠ "" ∧ ¬ k ∈ seen then x :: dedupKeyedAux key (k :: seen) rest
    else dedupKeyedAux key seen rest

/-- First-seen deduplication starting from an empty `seen` set. -/
def dedupKeyed (key : α → String) (l : List α) : List α := dedupKeyedAux key [] l

/-- Key used by `_dedupe` in `app/services/news_fetcher.py`:
`(it.get("url") or "").strip().lower()`. -/
def urlKeyNF (it : Item) : String := pyLower (pyStrip (it.url.getD ""))

/-- Embeds `_dedupe` (`app/services/news_fetcher.py`): first-seen
deduplication keyed on the stripped, lower-cased URL; items with an empty
key are dropped. -/
def dedupeNF (items : List Item) : List Item := dedupKeyed urlKeyNF items

/-- Key used by `_dedupe` in `app/services/ingest_auto.py`:
`(it.get("url") or "").strip()` (no lower-casing there). -/
def urlKeyIA (it : Item) : String := pyStrip (it.url.getD "")

/-- Embeds `_dedupe` (`app/services/ingest_auto.py`). -/
def dedupeIA (items : List Item) : List Item := dedupKeyed urlKeyIA items

/-- Contribution of one alias in `score_item` (`app/services/rank.py`):
5 for a title hit, else 3 for a snippet hit, else 0; the empty alias
contributes nothing (`if al and al in title`). -/
def aliasPoints (title snip : String) (a : String) : Nat :=
  let al := pyLower a
  if al ≠ "" ∧ strIn al title then 5
  else if al ≠ "" ∧ strIn al snip then 3
  else 0

/-- Contribution of one city keyword in `score_item`: 2 for a title hit,
else 1 for a snippet hit, else 0. -/
def cityPoints (title snip : String) (c : String) : Nat :=
  let cl := pyLower c
  if cl ≠ "" ∧ strIn cl title then 2
  else if cl ≠ "" ∧ strIn cl snip then 1
  else 0

/-- Embeds `score_item` (`app/services/rank.py`): lower-case the item's
title and snippet, then accumulate, over every alias, 5/3 points for a
title/snippet substring hit, and over every city keyword, 2/1 points
likewise.  Floats in the source take only exact small sums, modelled as
`Nat`. -/
def score_item (it : Item) (aliases : List String) (cityKeywords : List String) : Nat :=
  let title := pyLower (it.title.getD "")
  let snip := pyLower (it.snippet.getD "")
  let s1 := aliases.foldl (fun s a => s + aliasPoints title snip a) 0
  cityKeywords.foldl (fun s c => s + cityPoints title snip c) s1

/-- Insert `x` into a list sorted descending by `key`, after every element
of strictly greater or equal key seen so far would be wrong for stability:
`x` goes after every element whose key is strictly greater, and before the
first element whose key is not, which keeps earlier input elements of equal
key in front.  This is the unique stable descending order that Python's
`list.sort(key=..., reverse=True)` produces. -/
def insertDesc (key : α → Nat) (x : α) : List α → List α
  | [] => [x]
  | y :: ys => if key x < key y then y :: insertDesc key x ys else x :: y :: ys

/-- Stable descending insertion sort by `key`: models
`scored.sort(key=lambda x: x[0], reverse=True)` in
`search_google_news_multi_relaxed`. -/
def sortDesc (key : α → Nat) : List α → List α
  | [] => []
  | x :: xs => insertDesc key x (sortDesc key xs)

/-- Python `f'"{a}"'`. -/
def quoteStr (a : String) : String := "\"" ++ a ++ "\""

/-- The `" OR ".join([f'"{c}"' for c in city_boost])` expression of the
cascade. -/
def orCities (cityBoost : List String) : String :=
  " OR ".intercalate (cityBoost.map quoteStr)

/-- Pass-1 queries of the cascade: each alias quoted, with the city-boost
disjunction appended when a boost exists. -/
def queriesP1 (aliases cityBoost : List String) : List String :=
  aliases.map (fun a =>
    if cityBoost ≠ [] then quoteStr a ++ " (" ++ orCities cityBoost ++ ")"
    else quoteStr a)

/-- Pass-2 (national) queries of the cascade: each alias quoted, no city
boost. -/
def queriesP2 (aliases : List String) : List String := aliases.map quoteStr

/-- Result of one cascade run: the trace of provider calls actually
performed, as (pass index, `days_back` used) pairs in execution order, and
the ranked, truncated output. -/
structure CascadeOut where
  calls : List (Nat × Nat)
  ranked : List Item
  deriving Repr, DecidableEq

/-- Embeds `search_google_news_multi_relaxed`
(`app/services/news_fetcher.py`).  `aliases` stands for `expand_actor(q)`
(accent-insensitive alias expansion, orthogonal to the properties proved
here); `gnFetch queries daysBack` is the oracle for `_gn_fetch` and
`backfill daysBack` the oracle for `_site_backfill` (network effects made
explicit).  Pass 1 always runs; pass 2 runs when the accumulated raw item
list is still shorter than `size`; pass 3 likewise; then the accumulated
list is deduplicated, score-ranked descending (stable), and truncated to
`size`. -/
def search_google_news_multi_relaxed (size daysBack : Nat)
    (aliases cityKeywords : List String)
    (gnFetch : List String → Nat → List Item) (backfill : Nat → List Item) :
    CascadeOut :=
  let cityBoost := cityKeywords.filter (fun c => c ≠ "" ∧ pyStrip c ≠ "")
  let items1 := gnFetch (queriesP1 aliases cityBoost) daysBack
  let calls1 := [(1, daysBack)]
  let s2 :=
    if items1.length < size then
      (items1 ++ gnFetch (queriesP2 aliases) daysBack, calls1 ++ [(2, daysBack)])
    else (items1, calls1)
  let s3 :=
    if s2.1.length < size then
      (s2.1 ++ backfill daysBack, s2.2 ++ [(3, daysBack)])
    else s2
  let deduped := dedupeNF s3.1
  let ranked := sortDesc (fun it => score_item it aliases cityBoost) deduped
  ⟨s3.2, ranked.take size⟩

/-- Role keyword table of `app/services/query_builder.py`. -/
def ROLE_KEYWORDS : List String :=
  ["alcalde", "alcaldesa", "presidente municipal", "edil", "munícipe",
   "diputado", "diputada", "senador", "senadora", "candidato", "candidata"]

/-- Party keyword table of `app/services/query_builder.py`. -/
def PARTY_KEYWORDS : List String := ["morena", "pan", "pri", "prd", "mc", "verde", "pt"]

/-- Embeds `_norm_list`: strip each entry and keep the non-empty results. -/
def norm_list (values : List String) : List String :=
  (values.map pyStrip).filter (fun s => s ≠ "")

/-- Group 1 of `build_query_variants`: actor + role + city, unquoted then
quoted actor, nested loops in source order (cities outer, roles inner). -/
def qbRoleCity (a : String) (cities : List String) : List String :=
  cities.flatMap (fun c => ROLE_KEYWORDS.flatMap (fun r =>
    [a ++ " " ++ r ++ " " ++ c, quoteStr a ++ " " ++ r ++ " " ++ c]))

/-- Group 2: actor + party + city. -/
def qbPartyCity (a : String) (cities : List String) : List String :=
  cities.flatMap (fun c => PARTY_KEYWORDS.flatMap (fun p =>
    [a ++ " " ++ p ++ " " ++ c, quoteStr a ++ " " ++ p ++ " " ++ c]))

/-- Group 3: actor + city. -/
def qbCity (a : String) (cities : List String) : List String :=
  cities.flatMap (fun c => [a ++ " " ++ c, quoteStr a ++ " " ++ c])

/-- Group 4: actor + role, no city. -/
def qbRole (a : String) : List String :=
  ROLE_KEYWORDS.flatMap (fun r => [a ++ " " ++ r, quoteStr a ++ " " ++ r])

/-- Group 5: actor + party, no city. -/
def qbParty (a : String) : List String :=
  PARTY_KEYWORDS.flatMap (fun p => [a ++ " " ++ p, quoteStr a ++ " " ++ p])

/-- Group 6: actor + extra (and + city). -/
def qbExtras (a : String) (cities extras : List String) : List String :=
  extras.flatMap (fun x =>
    [a ++ " " ++ x, quoteStr a ++ " " ++ x] ++
    cities.flatMap (fun c => [a ++ " " ++ x ++ " " ++ c, quoteStr a ++ " " ++ x ++ " " ++ c]))

/-- All candidate strings of `build_query_variants` in the exact order the
source's `add` calls produce them. -/
def variantCandidates (a : String) (cities extras : List String) : List String :=
  qbRoleCity a cities ++ qbPartyCity a cities ++ qbCity a cities ++
  qbRole a ++ qbParty a ++ qbExtras a cities extras ++ [a, quoteStr a]

/-- Embeds `build_query_variants` (`app/services/query_builder.py`): empty
actor gives `[]`; otherwise each candidate is stripped and appended when
non-empty and not yet seen (the `add`/`seen` loop is exactly first-seen
deduplication of the stripped candidate sequence). -/
def build_query_variants (actor : String) (city_keywords extras : List String) : List String :=
  let a := pyStrip actor
  if a = "" then []
  else
    dedupKeyed id
      ((variantCandidates a (norm_list city_keywords) (norm_list extras)).map pyStrip)

/-- A persisted row, reduced to the fields the idempotence property is
about.  The globally unique `hash` column (sha256 of the URL) is modelled
by the URL itself. -/
structure IngRow where
  campaignId : String
  url : String
  deriving Repr, DecidableEq

/-- Embeds the persistence loop of `run_alert` (`app/scheduler.py`): for
each fetched link, look the URL hash up across the whole table (no campaign
filter in the source) and insert a row for the alert's campaign only when
absent. -/
def run_alert_persist (campId : String) (db : List IngRow) (links : List String) :
    List IngRow :=
  links.foldl
    (fun db l => if db.any (fun r => r.url == l) then db else db ++ [⟨campId, l⟩])
    db

/-- Normalisation step of `kickoff_campaign_ingest`
(`app/services/ingest_auto.py`): strip title and URL, drop candidates with
either empty, truncate the title to 512 characters. -/
def kickoff_normalize (items : List Item) : List Item :=
  items.filterMap (fun it =>
    let t := pyStrip (it.title.getD "")
    let u := pyStrip (it.url.getD "")
    if u = "" ∨ t = "" then none
    else some { title := some (String.mk (t.data.take 512)), url := some u })

/-- Embeds the persistence step of `kickoff_campaign_ingest`
(`app/services/ingest_auto.py`): normalise, deduplicate within the batch,
truncate to `size`, then INSERT each row unconditionally — the source
checks no existing row before inserting. -/
def kickoff_persist (campId : String) (size : Nat) (db : List IngRow)
    (items : List Item) : List IngRow :=
  db ++ ((dedupeIA (kickoff_normalize items)).take size).map
    (fun it => ⟨campId, it.url.getD ""⟩)

/-- Plan tiers (`PlanTier` enum, values as in `schemas.PlanTierEnum` and the
scheduler's uses). -/
inductive PlanTier where
  | BASIC
  | PRO
  | UNLIMITED
  deriving Repr, DecidableEq

/-- Campaign scheduling state: the columns `campaign_tick` reads and
writes.  Timestamps are local-time seconds. -/
structure CampState where
  plan : PlanTier
  autoRunsToday : Nat
  autoLastReset : Option Nat
  lastAutoRunAt : Option Nat
  deriving Repr, DecidableEq

/-- Calendar date (day number) of a local timestamp. -/
def dateOf (t : Nat) : Nat := t / 86400

/-- Embeds `_reset_quota_if_needed` (`app/scheduler.py`): when there is no
recorded reset, or its calendar date differs from today's, zero the daily
counter and stamp the reset with the current time. -/
def reset_quota_if_needed (now : Nat) (c : CampState) : CampState :=
  match c.autoLastReset with
  | none => { c with autoRunsToday := 0, autoLastReset := some now }
  | some r =>
    if dateOf r ≠ dateOf now then { c with autoRunsToday := 0, autoLastReset := some now }
    else c

/-- Embeds `_quota_for_plan` (`app/scheduler.py`): BASIC = 1, PRO = 3,
UNLIMITED = no quota. -/
def quota_for_plan : PlanTier → Option Nat
  | .BASIC => some 1
  | .PRO => some 3
  | .UNLIMITED => none

/-- Embeds `_should_run_now` (`app/scheduler.py`): with a recorded last
run, refuse when less than 4 hours have elapsed.  (With `Nat` time, a
last-run in the future also refuses, as the negative Python delta does.) -/
def should_run_now (c : CampState) (now : Nat) : Bool :=
  match c.lastAutoRunAt with
  | some t => if now < t + 4 * 3600 then false else true
  | none => true

/-- One campaign's slice of `campaign_tick` (`app/scheduler.py`) at local
time `now` (the source computes `today` and `now` from the same clock, so
`today = dateOf now`): reset the quota window if the date advanced, skip
when the quota is reached, skip when spacing forbids, otherwise run the
pipeline, increment the counter and stamp the run.  Returns the new state
and whether the pipeline ran. -/
def campaign_tick_one (now : Nat) (c : CampState) : CampState × Bool :=
  let c := reset_quota_if_needed now c
  let quotaBlocked :=
    match quota_for_plan c.plan with
    | some q => decide (c.autoRunsToday ≥ q)
    | none => false
  if quotaBlocked then (c, false)
  else if ¬ should_run_now c now then (c, false)
  else ({ c with autoRunsToday := c.autoRunsToday + 1, lastAutoRunAt := some now }, true)

/-- Run a sequence of scheduler ticks over one campaign, threading the
state and counting how many ticks ran the pipeline. -/
def runTicks : CampState → List Nat → CampState × Nat
  | c, [] => (c, 0)
  | c, t :: ts =>
    let r := campaign_tick_one t c
    let rest := runTicks r.1 ts
    (rest.1, (if r.2 then 1 else 0) + rest.2)

/-! General lemmas about the first-seen deduplication loop. -/

/-- The `seen` set as it stands after processing a list (keys of kept
elements are added, exactly as the loop does). -/
def seenAfter (key : α → String) : List String → List α → List String
  | seen, [] => seen
  | seen, x :: rest =>
    let k := key x
    if k ≠ "" ∧ ¬ k ∈ seen then seenAfter key (k :: seen) rest
    else seenAfter key seen rest

theorem dedupKeyedAux_sublist (key : α → String) :
    ∀ (l : List α) (seen : List String), (dedupKeyedAux key seen l).Sublist l := by
  intro l
  induction l with
  | nil => intro seen; simp [dedupKeyedAux]
  | cons x rest ih =>
    intro seen
    simp only [dedupKeyedAux]
    split
    · exact List.Sublist.cons₂ x (ih _)
    · exact List.Sublist.cons x (ih _)

theorem mem_of_mem_dedupKeyedAux {key : α → String} {l : List α} {seen : List String}
    {x : α} (h : x ∈ dedupKeyedAux key seen l) : x ∈ l :=
  (dedupKeyedAux_sublist key l seen).mem h

theorem dedupKeyedAux_key_fresh (key : α → String) :
    ∀ (l : List α) (seen : List String) (x : α), x ∈ dedupKeyedAux key seen l →
      key x ∉ seen ∧ key x ≠ "" := by
  intro l
  induction l with
  | nil => intro seen x h; simp [dedupKeyedAux] at h
  | cons y rest ih =>
    intro seen x h
    simp only [dedupKeyedAux] at h
    split at h
    · rename_i hcond
      rcases List.mem_cons.1 h with rfl | h2
      · exact ⟨hcond.2, hcond.1⟩
      · have := ih _ _ h2
        refine ⟨fun hs => this.1 (List.mem_cons_of_mem _ hs), this.2⟩
    · exact ih _ _ h

theorem dedupKeyedAux_nodup_keys (key : α → String) :
    ∀ (l : List α) (seen : List String), ((dedupKeyedAux key seen l).map key).Nodup := by
  intro l
  induction l with
  | nil => intro seen; simp [dedupKeyedAux]
  | cons y rest ih =>
    intro seen
    simp only [dedupKeyedAux]
    split
    · rename_i hcond
      simp only [List.map_cons, List.nodup_cons]
      refine ⟨fun hmem => ?_, ih _⟩
      rcases List.mem_map.1 hmem with ⟨z, hz, hkz⟩
      exact (dedupKeyedAux_key_fresh key rest _ z hz).1 (by simp [hkz])
    · exact ih _

theorem dedupKeyedAux_find (key : α → String) (k : String) (hk : k ≠ "") :
    ∀ (l : List α) (seen : List String), k ∉ seen →
      (dedupKeyedAux key seen l).find? (fun x => key x == k) =
        l.find? (fun x => key x == k) := by
  intro l
  induction l with
  | nil => intro seen _; simp [dedupKeyedAux]
  | cons y rest ih =>
    intro seen hseen
    simp only [dedupKeyedAux]
    by_cases hky : key y = k
    · have : (key y ≠ "" ∧ ¬ key y ∈ seen) := by
        constructor
        · rw [hky]; exact hk
        · rw [hky]; exact hseen
      rw [if_pos this]
      simp [List.find?_cons, hky]
    · have hbeq : (key y == k) = false := by simp [hky]
      split
      · simp only [List.find?_cons, hbeq]
        exact ih (key y :: seen) (by
          intro hmem
          rcases List.mem_cons.1 hmem with h1 | h2
          · exact hky h1.symm
          · exact hseen h2)
      · simp only [List.find?_cons, hbeq]
        exact ih seen hseen

theorem dedupKeyedAux_covers (key : α → String) :
    ∀ (l : List α) (seen : List String) (x : α), x ∈ l → key x ≠ "" → key x ∉ seen →
      ∃ y ∈ dedupKeyedAux key seen l, key y = key x := by
  intro l
  induction l with
  | nil => intro seen x h; simp at h
  | cons z rest ih =>
    intro seen x hx hkx hks
    simp only [dedupKeyedAux]
    by_cases hkz : (key z ≠ "" ∧ ¬ key z ∈ seen)
    · rw [if_pos hkz]
      by_cases heq : key z = key x
      · exact ⟨z, List.mem_cons_self _ _, heq⟩
      · rcases List.mem_cons.1 hx with rfl | hx2
        · exact absurd rfl heq
        · rcases ih (key z :: seen) x hx2 hkx (by
            intro hmem
            rcases List.mem_cons.1 hmem with h1 | h2
            · exact heq h1.symm
            · exact hks h2) with ⟨y, hy, hky⟩
          exact ⟨y, List.mem_cons_of_mem _ hy, hky⟩
    · rw [if_neg hkz]
      rcases List.mem_cons.1 hx with rfl | hx2
      · exact absurd ⟨hkx, hks⟩ hkz
      · exact ih seen x hx2 hkx hks

theorem dedupKeyedAux_append (key : α → String) :
    ∀ (l₁ l₂ : List α) (seen : List String),
      dedupKeyedAux key seen (l₁ ++ l₂) =
        dedupKeyedAux key seen l₁ ++ dedupKeyedAux key (seenAfter key seen l₁) l₂ := by
  intro l₁
  induction l₁ with
  | nil => intro l₂ seen; simp [dedupKeyedAux, seenAfter]
  | cons x rest ih =>
    intro l₂ seen
    simp only [List.cons_append, dedupKeyedAux, seenAfter]
    split
    · simp [ih]
    · exact ih _ _

theorem mem_seenAfter (key : α → String) :
    ∀ (l : List α) (seen : List String) (k : String),
      (k ∈ seenAfter key seen l ↔ k ∈ seen ∨ (k ≠ "" ∧ ∃ x ∈ l, key x = k)) := by
  intro l
  induction l with
  | nil => intro seen k; simp [seenAfter]
  | cons x rest ih =>
    intro seen k
    simp only [seenAfter]
    split
    · rename_i hcond
      rw [ih]
      constructor
      · rintro (hin | hr)
        · rcases List.mem_cons.1 hin with rfl | h2
          · exact Or.inr ⟨hcond.1, x, List.mem_cons_self _ _, rfl⟩
          · exact Or.inl h2
        · exact Or.inr ⟨hr.1, hr.2.choose, List.mem_cons_of_mem _ hr.2.choose_spec.1, hr.2.choose_spec.2⟩
      · rintro (hin | ⟨hne, y, hy, hky⟩)
        · exact Or.inl (List.mem_cons_of_mem _ hin)
        · rcases List.mem_cons.1 hy with rfl | hy2
          · exact Or.inl (by simp [hky])
          · exact Or.inr ⟨hne, y, hy2, hky⟩
    · rename_i hcond
      rw [ih]
      constructor
      · rintro (hin | hr)
        · exact Or.inl hin
        · exact Or.inr ⟨hr.1, hr.2.choose, List.mem_cons_of_mem _ hr.2.choose_spec.1, hr.2.choose_spec.2⟩
      · rintro (hin | ⟨hne, y, hy, hky⟩)
        · exact Or.inl hin
        · rcases List.mem_cons.1 hy with rfl | hy2
          · left
            by_contra hns
            exact hcond ⟨by rw [hky]; exact hne, by rw [hky]; exact fun h => hns h⟩
          · exact Or.inr ⟨hne, y, hy2, hky⟩

/-! General lemmas about the stable descending insertion sort. -/

theorem insertDesc_perm (key : α → Nat) (x : α) :
    ∀ l : List α, (insertDesc key x l).Perm (x :: l) := by
  intro l
  induction l with
  | nil => simp [insertDesc]
  | cons y ys ih =>
    simp only [insertDesc]
    split
    · exact (ih.cons y).trans (List.Perm.swap x y ys)
    · exact List.Perm.refl _

theorem sortDesc_perm (key : α → Nat) :
    ∀ l : List α, (sortDesc key l).Perm l := by
  intro l
  induction l with
  | nil => simp [sortDesc]
  | cons x xs ih =>
    exact (insertDesc_perm key x (sortDesc key xs)).trans (ih.cons x)

theorem insertDesc_pairwise (key : α → Nat) (x : α) :
    ∀ l : List α, l.Pairwise (fun a b => key b ≤ key a) →
      (insertDesc key x l).Pairwise (fun a b => key b ≤ key a) := by
  intro l
  induction l with
  | nil => intro _; simp [insertDesc]
  | cons y ys ih =>
    intro hp
    rcases List.pairwise_cons.1 hp with ⟨hy, hys⟩
    simp only [insertDesc]
    split
    · rename_i hlt
      refine List.pairwise_cons.2 ⟨?_, ih hys⟩
      intro z hz
      rcases List.mem_cons.1 (((insertDesc_perm key x ys).mem_iff).1 hz) with rfl | hz2
      · exact Nat.le_of_lt hlt
      · exact hy z hz2
    · rename_i hge
      refine List.pairwise_cons.2 ⟨?_, hp⟩
      intro z hz
      rcases List.mem_cons.1 hz with rfl | hz2
      · exact Nat.le_of_not_lt hge
      · exact Nat.le_trans (hy z hz2) (Nat.le_of_not_lt hge)

theorem sortDesc_pairwise (key : α → Nat) :
    ∀ l : List α, (sortDesc key l).Pairwise (fun a b => key b ≤ key a) := by
  intro l
  induction l with
  | nil => simp [sortDesc]
  | cons x xs ih => exact insertDesc_pairwise key x _ ih

theorem insertDesc_filter_key (key : α → Nat) (x : α) (s : Nat) :
    ∀ l : List α,
      (insertDesc key x l).filter (fun a => key a == s) =
        if key x == s then x :: l.filter (fun a => key a == s)
        else l.filter (fun a => key a == s) := by
  intro l
  induction l with
  | nil => cases hxb : (key x == s) <;> simp [insertDesc, List.filter, hxb]
  | cons y ys ih =>
    simp only [insertDesc]
    split
    · rename_i hlt
      by_cases hx : key x = s
      · have hy : (key y == s) = false := by
          simp only [beq_eq_false_iff_ne, ne_eq]
          omega
        simp only [List.filter_cons, hy, ih, hx]
        simp
      · have hxb : (key x == s) = false := by simp [hx]
        simp only [List.filter_cons, ih, hxb]
        simp
    · by_cases hx : key x = s
      · have hxb : (key x == s) = true := by simp [hx]
        simp [List.filter_cons, hxb]
      · have hxb : (key x == s) = false := by simp [hx]
        simp [List.filter_cons, hxb]

theorem sortDesc_filter_key (key : α → Nat) (s : Nat) :
    ∀ l : List α,
      (sortDesc key l).filter (fun a => key a == s) = l.filter (fun a => key a == s) := by
  intro l
  induction l with
  | nil => simp [sortDesc]
  | cons x xs ih =>
    simp only [sortDesc, insertDesc_filter_key, List.filter_cons]
    by_cases hx : key x = s
    · have hxb : (key x == s) = true := by simp [hx]
      simp [hxb, ih]
    · have hxb : (key x == s) = false := by simp [hx]
      simp [hxb, ih]

/-- Folding `+ f x` over a list from a seed is the seed plus the mapped sum
(the loop shape of `score_item`). -/
theorem foldl_add_eq_sum (f : β → Nat) :
    ∀ (l : List β) (n : Nat), l.foldl (fun s x => s + f x) n = n + (l.map f).sum := by
  intro l
  induction l with
  | nil => intro n; simp
  | cons x xs ih =>
    intro n
    simp only [List.foldl_cons, List.map_cons, List.sum_cons, ih]
    omega

/-! Lemmas about the `run_alert` persistence loop. -/

theorem run_alert_persist_any_mono (campId : String) (p : IngRow → Bool) :
    ∀ (links : List String) (db : List IngRow), db.any p = true →
      (run_alert_persist campId db links).any p = true := by
  intro links
  induction links with
  | nil => intro db h; exact h
  | cons l ls ih =>
    intro db h
    simp only [run_alert_persist, List.foldl_cons]
    split
    · exact ih db h
    · exact ih _ (by simp [List.any_append, h])

theorem run_alert_persist_mem (campId : String) :
    ∀ (links : List String) (db : List IngRow) (l : String), l ∈ links →
      (run_alert_persist campId db links).any (fun r => r.url == l) = true := by
  intro links
  induction links with
  | nil => intro db l h; simp at h
  | cons l0 ls ih =>
    intro db l hl
    rcases List.mem_cons.1 hl with rfl | hl2
    · simp only [run_alert_persist, List.foldl_cons]
      split
      · rename_i hin
        exact run_alert_persist_any_mono campId _ ls db hin
      · refine run_alert_persist_any_mono campId _ ls _ ?_
        simp [List.any_append]
    · simp only [run_alert_persist, List.foldl_cons]
      split
      · exact ih db l hl2
      · exact ih _ l hl2

theorem run_alert_persist_of_all_present (campId : String) :
    ∀ (links : List String) (db : List IngRow),
      (∀ l ∈ links, db.any (fun r => r.url == l) = true) →
      run_alert_persist campId db links = db := by
  intro links
  induction links with
  | nil => intro db _; rfl
  | cons l0 ls ih =>
    intro db h
    simp only [run_alert_persist, List.foldl_cons]
    rw [if_pos (h l0 (List.mem_cons_self _ _))]
    exact ih db (fun l hl => h l (List.mem_cons_of_mem _ hl))

theorem run_alert_persist_countP_le_one (campId : String) (u : String) :
    ∀ (links : List String) (db : List IngRow),
      db.countP (fun r => r.url == u) ≤ 1 →
      (run_alert_persist campId db links).countP (fun r => r.url == u) ≤ 1 := by
  intro links
  induction links with
  | nil => intro db h; exact h
  | cons l0 ls ih =>
    intro db h
    simp only [run_alert_persist, List.foldl_cons]
    split
    · exact ih db h
    · rename_i hany
      refine ih _ ?_
      rw [List.countP_append]
      by_cases hu : l0 = u
      · have h0 : db.countP (fun r => r.url == u) = 0 := by
          rw [List.countP_eq_zero]
          intro r hr
          have := (List.any_eq_true.not).1 (by simp [hany] : ¬ db.any (fun r => r.url == l0) = true)
          push_neg at this
          have h2 := this r hr
          simpa [hu] using h2
        simp [h0, List.countP_cons, hu]
      · have : ((⟨campId, l0⟩ : IngRow).url == u) = false := by
          simp [hu]
        simp [List.countP_cons, this]
        omega

/-! Lemmas about the scheduler tick. -/

theorem reset_quota_plan (now : Nat) (c : CampState) :
    (reset_quota_if_needed now c).plan = c.plan := by
  cases h : c.autoLastReset with
  | none => simp [reset_quota_if_needed, h]
  | some r =>
    by_cases hd : dateOf r = dateOf now <;> simp [reset_quota_if_needed, h, hd]

theorem reset_quota_lastRun (now : Nat) (c : CampState) :
    (reset_quota_if_needed now c).lastAutoRunAt = c.lastAutoRunAt := by
  cases h : c.autoLastReset with
  | none => simp [reset_quota_if_needed, h]
  | some r =>
    by_cases hd : dateOf r = dateOf now <;> simp [reset_quota_if_needed, h, hd]

theorem reset_quota_date (now : Nat) (c : CampState) :
    ∃ r, (reset_quota_if_needed now c).autoLastReset = some r ∧ dateOf r = dateOf now := by
  cases h : c.autoLastReset with
  | none => exact ⟨now, by simp [reset_quota_if_needed, h], rfl⟩
  | some r =>
    by_cases hd : dateOf r = dateOf now
    · exact ⟨r, by simp [reset_quota_if_needed, h, hd], hd⟩
    · exact ⟨now, by simp [reset_quota_if_needed, h, hd], rfl⟩

theorem reset_quota_same_date (now : Nat) (c : CampState) (r : Nat)
    (h : c.autoLastReset = some r) (hd : dateOf r = dateOf now) :
    reset_quota_if_needed now c = c := by
  unfold reset_quota_if_needed
  rw [h]
  simp [hd]

theorem reset_quota_idem (now : Nat) (c : CampState) :
    reset_quota_if_needed now (reset_quota_if_needed now c) = reset_quota_if_needed now c := by
  rcases reset_quota_date now c with ⟨r, hr, hd⟩
  exact reset_quota_same_date now _ r hr hd

theorem campaign_tick_one_reset (now : Nat) (c : CampState) :
    campaign_tick_one now (reset_quota_if_needed now c) = campaign_tick_one now c := by
  unfold campaign_tick_one
  rw [reset_quota_idem]

/-- Core quota invariant: once the campaign's reset stamp is on today's
date, a day of ticks can add at most the quota headroom that is left. -/
theorem runTicks_quota_bound (q d : Nat) :
    ∀ (ts : List Nat) (c : CampState) (r : Nat),
      quota_for_plan c.plan = some q →
      (∀ t ∈ ts, dateOf t = d) →
      c.autoLastReset = some r →
      dateOf r = d →
      (runTicks c ts).2 ≤ q - c.autoRunsToday := by
  intro ts
  induction ts with
  | nil =>
    intro c r _ _ _ _
    simp [runTicks]
  | cons t ts ih =>
    intro c r hq hdate hlr hrd
    have hdt : dateOf t = d := hdate t (List.mem_cons_self _ _)
    have hreset : reset_quota_if_needed t c = c :=
      reset_quota_same_date t c r hlr (by rw [hrd, hdt])
    have hdate2 : ∀ s ∈ ts, dateOf s = d := fun s hs => hdate s (List.mem_cons_of_mem _ hs)
    simp only [runTicks]
    by_cases hblock : c.autoRunsToday ≥ q
    · have htick : campaign_tick_one t c = (c, false) := by
        simp [campaign_tick_one, hreset, hq, hblock]
      rw [htick]
      simpa using ih c r hq hdate2 hlr hrd
    · by_cases hrun : should_run_now c t = true
      · have htick : campaign_tick_one t c =
            ({ c with autoRunsToday := c.autoRunsToday + 1, lastAutoRunAt := some t }, true) := by
          simp [campaign_tick_one, hreset, hq, hblock, hrun]
        rw [htick]
        have hrec := ih { c with autoRunsToday := c.autoRunsToday + 1, lastAutoRunAt := some t }
          r hq hdate2 hlr hrd
        simp only [if_true] at hrec ⊢
        simp at hrec ⊢
        omega
      · have htick : campaign_tick_one t c = (c, false) := by
          simp [campaign_tick_one, hreset, hq, hblock, hrun]
        rw [htick]
        simpa using ih c r hq hdate2 hlr hrd

/-- A day of ticks (all on one calendar date) runs the pipeline at most
`q` times for a plan with quota `q`, from any starting state. -/
theorem runTicks_le_quota (q d : Nat) (ts : List Nat) (c : CampState)
    (hq : quota_for_plan c.plan = some q) (hdate : ∀ t ∈ ts, dateOf t = d) :
    (runTicks c ts).2 ≤ q := by
  cases ts with
  | nil => simp [runTicks]
  | cons t ts2 =>
    have hdt : dateOf t = d := hdate t (List.mem_cons_self _ _)
    obtain ⟨r, hr, hrdate⟩ := reset_quota_date t c
    have hplan : quota_for_plan (reset_quota_if_needed t c).plan = some q := by
      rw [reset_quota_plan]; exact hq
    have heq : (runTicks c (t :: ts2)).2 = (runTicks (reset_quota_if_needed t c) (t :: ts2)).2 := by
      simp only [runTicks]
      rw [campaign_tick_one_reset]
    rw [heq]
    have hb := runTicks_quota_bound q d (t :: ts2) (reset_quota_if_needed t c) r
      hplan hdate hr (by rw [hrdate, hdt])
    omega

/-- An UNLIMITED-plan campaign is never blocked by the quota check: its
tick runs exactly when the spacing check allows. -/
theorem tick_unlimited (now : Nat) (c : CampState) (hplan : c.plan = PlanTier.UNLIMITED) :
    (campaign_tick_one now c).2 = should_run_now (reset_quota_if_needed now c) now := by
  have hq : quota_for_plan (reset_quota_if_needed now c).plan = none := by
    rw [reset_quota_plan, hplan]; rfl
  simp only [campaign_tick_one, hq]
  cases hs : should_run_now (reset_quota_if_needed now c) now <;> simp [hs]

/-- A single city keyword contributes at most 2 points. -/
theorem cityPoints_le_two (title snip c : String) : cityPoints title snip c ≤ 2 := by
  unfold cityPoints
  simp only []
  split
  · exact Nat.le_refl 2
  · split
    · omega
    · omega

/-- An alias that hits the (lower-cased) title contributes exactly 5
points. -/
theorem aliasPoints_of_title_hit (title snip a : String)
    (h0 : pyLower a ≠ "") (h1 : strIn (pyLower a) title = true) :
    aliasPoints title snip a = 5 := by
  unfold aliasPoints
  rw [if_pos ⟨h0, h1⟩]

/-- `score_item` as the sum of per-alias and per-city contributions. -/
theorem score_item_eq_sum (it : Item) (aliases ck : List String) :
    score_item it aliases ck =
      (aliases.map (aliasPoints (pyLower (it.title.getD "")) (pyLower (it.snippet.getD "")))).sum
      + (ck.map (cityPoints (pyLower (it.title.getD "")) (pyLower (it.snippet.getD "")))).sum := by
  unfold score_item
  rw [foldl_add_eq_sum, foldl_add_eq_sum]
  omega

/-- When the spacing check refuses, the tick returns the post-reset state
unchanged and does not run. -/
theorem tick_skip_of_spacing (now : Nat) (c : CampState)
    (h : should_run_now (reset_quota_if_needed now c) now = false) :
    campaign_tick_one now c = (reset_quota_if_needed now c, false) := by
  simp only [campaign_tick_one, h]
  split
  · rfl
  · simp

/-- The daily reset either leaves the counter alone or zeroes it. -/
theorem reset_quota_runsToday (now : Nat) (c : CampState) :
    (reset_quota_if_needed now c).autoRunsToday = c.autoRunsToday
    ∨ (reset_quota_if_needed now c).autoRunsToday = 0 := by
  cases h : c.autoLastReset with
  | none => right; simp [reset_quota_if_needed, h]
  | some r =>
    by_cases hd : dateOf r = dateOf now
    · left; simp [reset_quota_if_needed, h, hd]
    · right; simp [reset_quota_if_needed, h, hd]

/-- In a first-seen deduplication of `l₁ ++ l₂` (identity key), an element
of `l₁` is placed strictly before any element that only occurs in `l₂`. -/
theorem dedupKeyed_index_lt (l₁ l₂ : List String) (u v : String)
    (hu : u ∈ l₁) (hu0 : u ≠ "") (hv : v ∈ l₂) (hv1 : v ∉ l₁) (hv0 : v ≠ "") :
    (dedupKeyed id (l₁ ++ l₂)).indexOf u < (dedupKeyed id (l₁ ++ l₂)).indexOf v := by
  have hsplit : dedupKeyed id (l₁ ++ l₂) =
      dedupKeyedAux id [] l₁ ++ dedupKeyedAux id (seenAfter id [] l₁) l₂ :=
    dedupKeyedAux_append id l₁ l₂ []
  have huA : u ∈ dedupKeyedAux id [] l₁ := by
    rcases dedupKeyedAux_covers id l₁ [] u hu hu0 (by simp) with ⟨y, hy, hky⟩
    have : y = u := hky
    rw [this] at hy
    exact hy
  have hnotseen : v ∉ seenAfter id [] l₁ := by
    rw [mem_seenAfter]
    rintro (h | ⟨_, x, hx, hxv⟩)
    · simp at h
    · exact hv1 (by rw [← hxv]; exact hx)
  have hvB : v ∈ dedupKeyedAux id (seenAfter id [] l₁) l₂ := by
    rcases dedupKeyedAux_covers id l₂ _ v hv hv0 hnotseen with ⟨y, hy, hky⟩
    have : y = v := hky
    rw [this] at hy
    exact hy
  have hvA : v ∉ dedupKeyedAux id [] l₁ := fun h => hv1 (mem_of_mem_dedupKeyedAux h)
  rw [hsplit, List.indexOf_append_of_mem huA, List.indexOf_append_of_not_mem hvA]
  have h1 : (dedupKeyedAux id [] l₁).indexOf u < (dedupKeyedAux id [] l₁).length :=
    List.indexOf_lt_length.2 huA
  omega

/-! Claim theorems. -/

/-- C10: URL canonicalization is the identity outside the aggregator case
and is total.  For every input whose parsed host does not end with
`news.google.com`, or whose query lacks a non-empty `url` parameter,
`clean_link` returns the input unchanged; and on every input it returns
either the input or a `url` query-parameter value (the embedding is a total
function, mirroring the try/except fallback that makes the source total). -/
theorem C10_clean_link_identity_outside_aggregator :
    (∀ u : String,
        (endsWithS (urlparse u).netloc "news.google.com" = false ∨
          (parse_qs (urlparse u).query).find? (fun p => p.1 == "url") = none) →
        clean_link u = u)
    ∧ (∀ u : String, clean_link u = u ∨
        ∃ p ∈ parse_qs (urlparse u).query, p.1 = "url" ∧ clean_link u = p.2) := by
  constructor
  · intro u h
    cases hn : endsWithS (urlparse u).netloc "news.google.com" with
    | false => simp [clean_link, hn]
    | true =>
      rcases h with h | h
      · rw [hn] at h; cases h
      · simp [clean_link, hn, h]
  · intro u
    cases hn : endsWithS (urlparse u).netloc "news.google.com" with
    | false => left; simp [clean_link, hn]
    | true =>
      cases hf : (parse_qs (urlparse u).query).find? (fun p => p.1 == "url") with
      | none => left; simp [clean_link, hn, hf]
      | some p =>
        right
        refine ⟨p, List.mem_of_find?_eq_some hf, ?_, by simp [clean_link, hn, hf]⟩
        have := List.find?_some hf
        simpa using this

/-- Witness for C10 at a non-aggregator URL. -/
theorem C10_witness : clean_link "https://example.com/a?b=c" = "https://example.com/a?b=c" :=
  C10_clean_link_identity_outside_aggregator.1 "https://example.com/a?b=c" (Or.inl (by decide))

/-- C3 counterexample: two candidates whose URLs canonicalize (via
`clean_link`) to the same destination — one aggregator-wrapped, one plain —
are both kept by `_dedupe`, which keys on the raw (stripped, lower-cased)
URL string, not on the canonical URL.  So the output does not have exactly
one entry per canonical URL. -/
theorem C3_counterexample :
    clean_link "https://news.google.com/articles?url=https://x.com/a" = "https://x.com/a"
    ∧ (dedupeNF
        [{ title := some "t", url := some "https://news.google.com/articles?url=https://x.com/a" },
         { title := some "t", url := some "https://x.com/a" }]).length = 2 := by
  exact ⟨by decide, by decide⟩

/-- C3 amended: `_dedupe` deduplicates by the stripped, lower-cased URL
string (not the canonical URL): the output is an order-preserving
sublist of the input, its URL keys are pairwise distinct, every input
candidate with a non-empty key is represented, and for each key the
retained entry is the first-seen input entry with that key. -/
theorem C3_dedupe_first_seen_by_raw_url (items : List Item) :
    (dedupeNF items).Sublist items
    ∧ ((dedupeNF items).map urlKeyNF).Nodup
    ∧ (∀ it ∈ items, urlKeyNF it ≠ "" →
        ∃ it2 ∈ dedupeNF items, urlKeyNF it2 = urlKeyNF it)
    ∧ (∀ k : String, k ≠ "" →
        (dedupeNF items).find? (fun it => urlKeyNF it == k) =
          items.find? (fun it => urlKeyNF it == k)) := by
  refine ⟨dedupKeyedAux_sublist urlKeyNF items [], dedupKeyedAux_nodup_keys urlKeyNF items [],
    fun it hit hk => dedupKeyedAux_covers urlKeyNF items [] it hit hk (by simp),
    fun k hk => dedupKeyedAux_find urlKeyNF k hk items [] (by simp)⟩

/-- Witness for C3's amended theorem on a concrete duplicate-bearing list. -/
theorem C3_witness :
    (dedupeNF [{ title := some "t", url := some "u" }, { title := some "s", url := some "U " }]).find?
        (fun it => urlKeyNF it == "u") =
      [({ title := some "t", url := some "u" } : Item),
       { title := some "s", url := some "U " }].find? (fun it => urlKeyNF it == "u") :=
  (C3_dedupe_first_seen_by_raw_url
    [{ title := some "t", url := some "u" }, { title := some "s", url := some "U " }]).2.2.2
    "u" (by decide)

/-- C5 counterexample: the score is additive per alias and per locality
hint, not a flat +5/+3 plus +2/+1.  Two aliases both hitting the title
score 10, not 5; and with three locality hints an item carrying only the
hints (score 6) outranks an otherwise-identical item whose title carries
the tracked entity (score 5). -/
theorem C5_counterexample :
    score_item { title := some "ana lopez" } ["ana", "an"] [] = 10
    ∧ score_item { title := some "jane" } ["jane"] ["xq", "yq", "zq"] = 5
    ∧ score_item { title := some "xq yq zq" } ["jane"] ["xq", "yq", "zq"] = 6 := by
  exact ⟨by decide, by decide, by decide⟩

/-- C5 amended: `score_item` is the deterministic sum, over every alias, of
5/3/0 points (title hit / snippet hit / miss) plus, over every city
keyword, of 2/1/0 points; an item whose title contains some non-empty
alias scores at least 5, while an item matching no alias and given at most
one locality hint scores at most 2 (so the former outranks the latter). -/
theorem C5_score_additive_and_entity_dominates :
    (∀ (it : Item) (aliases ck : List String),
        score_item it aliases ck =
          (aliases.map (aliasPoints (pyLower (it.title.getD ""))
            (pyLower (it.snippet.getD "")))).sum
          + (ck.map (cityPoints (pyLower (it.title.getD ""))
            (pyLower (it.snippet.getD "")))).sum)
    ∧ (∀ (it : Item) (aliases ck : List String) (a : String),
        a ∈ aliases → pyLower a ≠ "" →
        strIn (pyLower a) (pyLower (it.title.getD "")) = true →
        5 ≤ score_item it aliases ck)
    ∧ (∀ (it : Item) (aliases ck : List String),
        (∀ a ∈ aliases,
          aliasPoints (pyLower (it.title.getD "")) (pyLower (it.snippet.getD "")) a = 0) →
        ck.length ≤ 1 → score_item it aliases ck ≤ 2) := by
  refine ⟨score_item_eq_sum, ?_, ?_⟩
  · intro it aliases ck a ha h0 h1
    rw [score_item_eq_sum]
    have h5 : aliasPoints (pyLower (it.title.getD "")) (pyLower (it.snippet.getD "")) a = 5 :=
      aliasPoints_of_title_hit _ _ _ h0 h1
    have hle : aliasPoints (pyLower (it.title.getD "")) (pyLower (it.snippet.getD "")) a ≤
        (aliases.map (aliasPoints (pyLower (it.title.getD ""))
          (pyLower (it.snippet.getD "")))).sum :=
      List.single_le_sum (fun x _ => Nat.zero_le x) _
        (List.mem_map_of_mem _ ha)
    omega
  · intro it aliases ck hz hlen
    rw [score_item_eq_sum]
    have h0 : (aliases.map (aliasPoints (pyLower (it.title.getD ""))
        (pyLower (it.snippet.getD "")))).sum = 0 := by
      apply List.sum_eq_zero
      intro x hx
      rcases List.mem_map.1 hx with ⟨a, ha, rfl⟩
      exact hz a ha
    rw [h0]
    match ck, hlen with
    | [], _ => simp
    | [c], _ =>
      simpa using cityPoints_le_two (pyLower (it.title.getD "")) (pyLower (it.snippet.getD "")) c

/-- Witness for C5's amended theorem: a title hit by the single alias
scores at least 5. -/
theorem C5_witness : 5 ≤ score_item { title := some "jane doe" } ["jane"] [] :=
  C5_score_additive_and_entity_dominates.2.1 { title := some "jane doe" } ["jane"] [] "jane"
    (by decide) (by decide) (by decide)

/-- C6 counterexample: two equally-scored deduplicated items are ranked in
first-seen order even though the first has the older publish timestamp —
the sort key is the score alone, so no recency tie-break is applied and
items without a timestamp are not demoted. -/
theorem C6_counterexample :
    score_item { title := some "t", url := some "u1", publishedAt := some 100 } [] [] =
      score_item { title := some "t", url := some "u2", publishedAt := some 200 } [] []
    ∧ (search_google_news_multi_relaxed 5 14 [] []
        (fun _ _ => [{ title := some "t", url := some "u1", publishedAt := some 100 },
                     { title := some "t", url := some "u2", publishedAt := some 200 }])
        (fun _ => [])).ranked =
      [{ title := some "t", url := some "u1", publishedAt := some 100 },
       { title := some "t", url := some "u2", publishedAt := some 200 }] := by
  exact ⟨rfl, by decide⟩

/-- C6 amended: the ranked list is the stable descending sort by score of
the deduplicated items — scores are pairwise non-increasing, the sort is a
permutation, and within each score class the first-seen (deduplication)
order is preserved exactly; publish timestamps play no role. -/
theorem C6_rank_stable_sort_no_recency (aliases cb : List String) (l : List Item) :
    (sortDesc (fun it => score_item it aliases cb) (dedupeNF l)).Pairwise
      (fun x y => score_item y aliases cb ≤ score_item x aliases cb)
    ∧ (sortDesc (fun it => score_item it aliases cb) (dedupeNF l)).Perm (dedupeNF l)
    ∧ ∀ s : Nat,
        (sortDesc (fun it => score_item it aliases cb) (dedupeNF l)).filter
          (fun it => score_item it aliases cb == s)
        = (dedupeNF l).filter (fun it => score_item it aliases cb == s) :=
  ⟨sortDesc_pairwise _ _, sortDesc_perm _ _,
    fun s => sortDesc_filter_key (fun it => score_item it aliases cb) s _⟩

/-- C2 counterexample: the cascade gates later tiers on the raw accumulated
item count, not the unique-candidate count.  With target 2, pass 1
returning two duplicates of one URL (unique count 1 < 2), neither pass 2
nor pass 3 runs — the call trace is just pass 1. -/
theorem C2_counterexample :
    (search_google_news_multi_relaxed 2 14 ["a"] ["c"]
        (fun qs _ =>
          if qs == queriesP1 ["a"] ["c"]
          then [{ title := some "t", url := some "http://X/1" },
                { title := some "t", url := some "HTTP://x/1 " }]
          else [])
        (fun _ => [])).calls = [(1, 14)]
    ∧ (dedupeNF [{ title := some "t", url := some "http://X/1" },
                 { title := some "t", url := some "HTTP://x/1 " }]).length < 2 := by
  exact ⟨by decide, by decide⟩

/-- C2 amended: a later tier runs exactly when the raw accumulated
candidate count (duplicates included — deduplication only happens after all
passes) of the earlier tiers is below `size`: pass 2 runs iff pass 1's raw
count is short of target, pass 3 iff the raw count after passes 1–2 is. -/
theorem C2_cascade_gates_on_raw_count (size d : Nat) (aliases ck : List String)
    (gf : List String → Nat → List Item) (bf : Nat → List Item) :
    ((2, d) ∈ (search_google_news_multi_relaxed size d aliases ck gf bf).calls ↔
      (gf (queriesP1 aliases (ck.filter (fun c => c ≠ "" ∧ pyStrip c ≠ ""))) d).length < size)
    ∧ ((3, d) ∈ (search_google_news_multi_relaxed size d aliases ck gf bf).calls ↔
      (gf (queriesP1 aliases (ck.filter (fun c => c ≠ "" ∧ pyStrip c ≠ ""))) d).length +
        (if (gf (queriesP1 aliases (ck.filter (fun c => c ≠ "" ∧ pyStrip c ≠ ""))) d).length < size
         then (gf (queriesP2 aliases) d).length else 0) < size) := by
  simp only [search_google_news_multi_relaxed]
  generalize gf (queriesP1 aliases (ck.filter (fun c => c ≠ "" ∧ pyStrip c ≠ ""))) d = x1
  generalize gf (queriesP2 aliases) d = x2
  generalize bf d = x3
  by_cases h1 : x1.length < size
  · by_cases h2 : x1.length + x2.length < size
    · simp [h1, h2, List.length_append]
    · simp [h1, h2, List.length_append]
  · simp [h1]

/-- C4 counterexample: even when every provider returns nothing and the
cascade finishes far below target, the call trace is exactly the three
passes at the original 14-day window — no pass re-runs with a doubled
(28-day) or otherwise widened lookback window, because no window-relaxation
tier exists in the code. -/
theorem C4_counterexample :
    (search_google_news_multi_relaxed 5 14 ["a"] [] (fun _ _ => []) (fun _ => [])).calls
      = [(1, 14), (2, 14), (3, 14)]
    ∧ (search_google_news_multi_relaxed 5 14 ["a"] [] (fun _ _ => []) (fun _ => [])).ranked
      = [] := by
  exact ⟨by decide, by decide⟩

/-- C4 amended: the cascade never widens the lookback window and never
re-runs a pass: its call trace is always a sublist of the three passes at
the given `days_back`, so every provider call uses the original window and
each pass executes at most once. -/
theorem C4_no_window_relaxation (size d : Nat) (aliases ck : List String)
    (gf : List String → Nat → List Item) (bf : Nat → List Item) :
    (search_google_news_multi_relaxed size d aliases ck gf bf).calls.Sublist
      [(1, d), (2, d), (3, d)]
    ∧ ∀ p ∈ (search_google_news_multi_relaxed size d aliases ck gf bf).calls, p.2 = d := by
  have hsub : (search_google_news_multi_relaxed size d aliases ck gf bf).calls.Sublist
      [(1, d), (2, d), (3, d)] := by
    simp only [search_google_news_multi_relaxed]
    generalize gf (queriesP1 aliases (ck.filter (fun c => c ≠ "" ∧ pyStrip c ≠ ""))) d = x1
    generalize gf (queriesP2 aliases) d = x2
    generalize bf d = x3
    by_cases h1 : x1.length < size
    · by_cases h2 : x1.length + x2.length < size
      · simp only [h1, if_true, List.length_append, h2]
        exact List.Sublist.refl _
      · simp only [h1, if_true, List.length_append, h2, if_false]
        exact List.Sublist.cons₂ _ (List.Sublist.cons₂ _ (List.nil_sublist _))
    · simp only [h1, if_false]
      exact List.Sublist.cons₂ _ (List.nil_sublist _)
  refine ⟨hsub, fun p hp => ?_⟩
  have hmem := hsub.subset hp
  rcases List.mem_cons.1 hmem with rfl | hmem
  · rfl
  rcases List.mem_cons.1 hmem with rfl | hmem
  · rfl
  rcases List.mem_cons.1 hmem with rfl | hmem
  · rfl
  · simp at hmem

/-- C1 counterexample: the campaign auto-ingest persistence step
(`kickoff_campaign_ingest`) checks nothing before inserting: running it
twice with the same single-candidate list leaves two rows with the same
(campaignId, url) pair, so that path is not idempotent. -/
theorem C1_counterexample :
    (kickoff_persist "c" 25
        (kickoff_persist "c" 25 [] [{ title := some "t", url := some "u" }])
        [{ title := some "t", url := some "u" }]).countP
      (fun r => r.campaignId == "c" && r.url == "u") = 2 := by
  decide

/-- C1 amended: only the alert path (`run_alert`) is idempotent, and its
existence check is keyed on the URL hash alone (across all campaigns, not
per (campaignId, url)): re-running its persistence step with the same link
list inserts nothing new, and a URL not already present is inserted at
most once. -/
theorem C1_alert_persist_idempotent_by_url (campId : String) (db : List IngRow)
    (links : List String) :
    run_alert_persist campId (run_alert_persist campId db links) links
      = run_alert_persist campId db links
    ∧ ∀ u : String, db.countP (fun r => r.url == u) = 0 →
        (run_alert_persist campId db links).countP (fun r => r.url == u) ≤ 1 := by
  constructor
  · exact run_alert_persist_of_all_present campId links _
      (fun l hl => run_alert_persist_mem campId links db l hl)
  · intro u h0
    exact run_alert_persist_countP_le_one campId u links db (by omega)

/-- Witness for C1's amended theorem on a concrete link list. -/
theorem C1_witness :
    (run_alert_persist "camp" [] ["u", "u", "v"]).countP (fun r => r.url == "u") ≤ 1 :=
  (C1_alert_persist_idempotent_by_url "camp" [] ["u", "u", "v"]).2 "u" (by decide)

/-- C7: under any sequence of ticks falling on one calendar date (an hourly
tick included), a BASIC campaign's pipeline runs at most once and a PRO
campaign's at most three times, from any starting state; an UNLIMITED
campaign is never blocked by the quota check — its tick runs exactly when
the spacing check allows. -/
theorem C7_quota_enforcement (c : CampState) (ts : List Nat) (d : Nat)
    (hdate : ∀ t ∈ ts, dateOf t = d) :
    (c.plan = PlanTier.BASIC → (runTicks c ts).2 ≤ 1)
    ∧ (c.plan = PlanTier.PRO → (runTicks c ts).2 ≤ 3)
    ∧ (∀ (now : Nat) (c2 : CampState), c2.plan = PlanTier.UNLIMITED →
        (campaign_tick_one now c2).2 = should_run_now (reset_quota_if_needed now c2) now) := by
  refine ⟨fun hb => runTicks_le_quota 1 d ts c (by rw [hb]; rfl) hdate,
    fun hp => runTicks_le_quota 3 d ts c (by rw [hp]; rfl) hdate,
    fun now c2 h => tick_unlimited now c2 h⟩

/-- Witness for C7: a BASIC campaign ticked four times in one day runs at
most once. -/
theorem C7_witness :
    (runTicks ⟨PlanTier.BASIC, 0, none, none⟩ [3600, 7200, 36000, 72000]).2 ≤ 1 :=
  (C7_quota_enforcement ⟨PlanTier.BASIC, 0, none, none⟩ [3600, 7200, 36000, 72000] 0
    (by decide)).1 rfl

/-- C8 counterexample: an attempt 2 hours after the last run (23:00 the
previous day) is skipped, but the daily rollover inside the same tick still
rewrites the run counter: `autoRunsToday` drops from 1 to 0 and the reset
stamp moves, so the skipped attempt does not leave the counters unchanged. -/
theorem C8_counterexample :
    90000 < 82800 + 4 * 3600
    ∧ campaign_tick_one 90000 ⟨PlanTier.PRO, 1, some 82800, some 82800⟩
      = (⟨PlanTier.PRO, 0, some 90000, some 82800⟩, false)
    ∧ (campaign_tick_one 90000 ⟨PlanTier.PRO, 1, some 82800, some 82800⟩).1.autoRunsToday
      ≠ (⟨PlanTier.PRO, 1, some 82800, some 82800⟩ : CampState).autoRunsToday := by
  exact ⟨by decide, by decide, by decide⟩

/-- C8 amended: an attempt within 4 hours of the recorded last run never
runs the pipeline, never touches `lastAutoRunAt`, and never increments
`autoRunsToday` (the counter is either untouched or zeroed by the daily
rollover reset); when the attempt falls on the same calendar date as the
recorded reset, the whole state is untouched. -/
theorem C8_spacing_skip (c : CampState) (now t : Nat)
    (hlast : c.lastAutoRunAt = some t) (hspacing : now < t + 4 * 3600) :
    (campaign_tick_one now c).2 = false
    ∧ (campaign_tick_one now c).1.lastAutoRunAt = c.lastAutoRunAt
    ∧ ((campaign_tick_one now c).1.autoRunsToday = c.autoRunsToday
        ∨ (campaign_tick_one now c).1.autoRunsToday = 0)
    ∧ (∀ r : Nat, c.autoLastReset = some r → dateOf r = dateOf now →
        (campaign_tick_one now c).1 = c) := by
  have hshould : should_run_now (reset_quota_if_needed now c) now = false := by
    unfold should_run_now
    rw [reset_quota_lastRun, hlast]
    simp [hspacing]
  have htick := tick_skip_of_spacing now c hshould
  refine ⟨by rw [htick], ?_, ?_, ?_⟩
  · rw [htick]
    exact reset_quota_lastRun now c
  · rw [htick]
    exact reset_quota_runsToday now c
  · intro r hr hd
    rw [htick]
    exact reset_quota_same_date now c r hr hd

/-- Witness for C8: a same-date attempt one hour after the last run is
skipped with the state fully unchanged. -/
theorem C8_witness :
    (campaign_tick_one 7200 ⟨PlanTier.PRO, 1, some 3600, some 3600⟩).2 = false
    ∧ (campaign_tick_one 7200 ⟨PlanTier.PRO, 1, some 3600, some 3600⟩).1
      = ⟨PlanTier.PRO, 1, some 3600, some 3600⟩ :=
  ⟨(C8_spacing_skip ⟨PlanTier.PRO, 1, some 3600, some 3600⟩ 7200 3600 rfl (by decide)).1,
   (C8_spacing_skip ⟨PlanTier.PRO, 1, some 3600, some 3600⟩ 7200 3600 rfl (by decide)).2.2.2
     3600 rfl (by decide)⟩

/-- C9 counterexample: the builder emits (entity + locality) variants
before (entity + role) variants — "Jane Springfield" (group 3) precedes
"Jane alcalde" (group 4) — contradicting the claimed ordering in which
every (entity + role) variant precedes every (entity + locality) variant;
also the quoted bare-entity form, not the bare entity, is the final entry. -/
theorem C9_counterexample :
    "Jane Springfield" ∈ build_query_variants "Jane" ["Springfield"] []
    ∧ "Jane alcalde" ∈ build_query_variants "Jane" ["Springfield"] []
    ∧ (build_query_variants "Jane" ["Springfield"] []).indexOf "Jane Springfield"
      < (build_query_variants "Jane" ["Springfield"] []).indexOf "Jane alcalde" := by
  exact ⟨by decide, by decide, by decide⟩

/-- C9 amended: for a non-empty stripped actor the builder returns distinct
strings (it is a pure function, deterministic by construction), ordered
with (entity + role + locality), then (entity + party + locality), then
(entity + locality) variants before the no-locality (entity + role)
variants — i.e. locality-qualified variants precede role-only variants, the
reverse of the claimed order — and the two bare-entity forms (unquoted then
quoted) are the final two entries whenever they do not already occur among
the qualified variants. -/
theorem C9_variant_order (actor : String) (ck extras : List String)
    (ha : pyStrip actor ≠ "") :
    (build_query_variants actor ck extras).Nodup
    ∧ (∀ u v : String,
        u ∈ (qbCity (pyStrip actor) (norm_list ck)).map pyStrip →
        v ∈ (qbRole (pyStrip actor)).map pyStrip →
        v ∉ ((qbRoleCity (pyStrip actor) (norm_list ck) ++
              qbPartyCity (pyStrip actor) (norm_list ck) ++
              qbCity (pyStrip actor) (norm_list ck)).map pyStrip) →
        u ≠ "" → v ≠ "" →
        (build_query_variants actor ck extras).indexOf u
          < (build_query_variants actor ck extras).indexOf v)
    ∧ (pyStrip (pyStrip actor) ∉
          ((qbRoleCity (pyStrip actor) (norm_list ck) ++
            qbPartyCity (pyStrip actor) (norm_list ck) ++
            qbCity (pyStrip actor) (norm_list ck) ++ qbRole (pyStrip actor) ++
            qbParty (pyStrip actor) ++
            qbExtras (pyStrip actor) (norm_list ck) (norm_list extras)).map pyStrip) →
        pyStrip (quoteStr (pyStrip actor)) ∉
          ((qbRoleCity (pyStrip actor) (norm_list ck) ++
            qbPartyCity (pyStrip actor) (norm_list ck) ++
            qbCity (pyStrip actor) (norm_list ck) ++ qbRole (pyStrip actor) ++
            qbParty (pyStrip actor) ++
            qbExtras (pyStrip actor) (norm_list ck) (norm_list extras)).map pyStrip) →
        pyStrip (pyStrip actor) ≠ "" →
        pyStrip (quoteStr (pyStrip actor)) ≠ "" →
        pyStrip (pyStrip actor) ≠ pyStrip (quoteStr (pyStrip actor)) →
        ∃ ys, build_query_variants actor ck extras
          = ys ++ [pyStrip (pyStrip actor), pyStrip (quoteStr (pyStrip actor))]) := by
  have hbuild : build_query_variants actor ck extras =
      dedupKeyed id
        ((variantCandidates (pyStrip actor) (norm_list ck) (norm_list extras)).map pyStrip) := by
    unfold build_query_variants
    rw [if_neg ha]
  refine ⟨?_, ?_, ?_⟩
  · rw [hbuild]
    have h := dedupKeyedAux_nodup_keys (id : String → String)
      ((variantCandidates (pyStrip actor) (norm_list ck) (norm_list extras)).map pyStrip) []
    simpa [dedupKeyed, List.map_id] using h
  · intro u v hu hv hvnot hu0 hv0
    rw [hbuild]
    have hform : (variantCandidates (pyStrip actor) (norm_list ck) (norm_list extras)).map pyStrip
        = ((qbRoleCity (pyStrip actor) (norm_list ck) ++
            qbPartyCity (pyStrip actor) (norm_list ck) ++
            qbCity (pyStrip actor) (norm_list ck)).map pyStrip)
          ++ ((qbRole (pyStrip actor) ++ qbParty (pyStrip actor) ++
            qbExtras (pyStrip actor) (norm_list ck) (norm_list extras) ++
            [pyStrip actor, quoteStr (pyStrip actor)]).map pyStrip) := by
      simp [variantCandidates, List.map_append, List.append_assoc]
    rw [hform]
    apply dedupKeyed_index_lt
    · simp only [List.map_append, List.mem_append]
      exact Or.inr hu
    · exact hu0
    · simp only [List.map_append, List.mem_append]
      exact Or.inl (Or.inl (Or.inl hv))
    · exact hvnot
    · exact hv0
  · intro h1 h2 h3 h4 h5
    rw [hbuild]
    have hform2 : (variantCandidates (pyStrip actor) (norm_list ck) (norm_list extras)).map pyStrip
        = ((qbRoleCity (pyStrip actor) (norm_list ck) ++
            qbPartyCity (pyStrip actor) (norm_list ck) ++
            qbCity (pyStrip actor) (norm_list ck) ++ qbRole (pyStrip actor) ++
            qbParty (pyStrip actor) ++
            qbExtras (pyStrip actor) (norm_list ck) (norm_list extras)).map pyStrip)
          ++ [pyStrip (pyStrip actor), pyStrip (quoteStr (pyStrip actor))] := by
      simp [variantCandidates, List.map_append, List.append_assoc]
    rw [hform2]
    unfold dedupKeyed
    rw [dedupKeyedAux_append]
    refine ⟨dedupKeyedAux id []
      ((qbRoleCity (pyStrip actor) (norm_list ck) ++
        qbPartyCity (pyStrip actor) (norm_list ck) ++
        qbCity (pyStrip actor) (norm_list ck) ++ qbRole (pyStrip actor) ++
        qbParty (pyStrip actor) ++
        qbExtras (pyStrip actor) (norm_list ck) (norm_list extras)).map pyStrip), ?_⟩
    congr 1
    have hw1 : pyStrip (pyStrip actor) ∉ seenAfter id []
        ((qbRoleCity (pyStrip actor) (norm_list ck) ++
          qbPartyCity (pyStrip actor) (norm_list ck) ++
          qbCity (pyStrip actor) (norm_list ck) ++ qbRole (pyStrip actor) ++
          qbParty (pyStrip actor) ++
          qbExtras (pyStrip actor) (norm_list ck) (norm_list extras)).map pyStrip) := by
      rw [mem_seenAfter]
      rintro (h | ⟨_, x, hx, hxe⟩)
      · simp at h
      · have hxw : x = pyStrip (pyStrip actor) := hxe
        rw [hxw] at hx
        exact h1 hx
    have hw2 : pyStrip (quoteStr (pyStrip actor)) ∉ seenAfter id []
        ((qbRoleCity (pyStrip actor) (norm_list ck) ++
          qbPartyCity (pyStrip actor) (norm_list ck) ++
          qbCity (pyStrip actor) (norm_list ck) ++ qbRole (pyStrip actor) ++
          qbParty (pyStrip actor) ++
          qbExtras (pyStrip actor) (norm_list ck) (norm_list extras)).map pyStrip) := by
      rw [mem_seenAfter]
      rintro (h | ⟨_, x, hx, hxe⟩)
      · simp at h
      · have hxw : x = pyStrip (quoteStr (pyStrip actor)) := hxe
        rw [hxw] at hx
        exact h2 hx
    have hcons : ¬ pyStrip (quoteStr (pyStrip actor)) ∈
        (pyStrip (pyStrip actor) :: seenAfter id []
          ((qbRoleCity (pyStrip actor) (norm_list ck) ++
            qbPartyCity (pyStrip actor) (norm_list ck) ++
            qbCity (pyStrip actor) (norm_list ck) ++ qbRole (pyStrip actor) ++
            qbParty (pyStrip actor) ++
            qbExtras (pyStrip actor) (norm_list ck) (norm_list extras)).map pyStrip)) := by
      intro hmem
      rcases List.mem_cons.1 hmem with heq | hmem2
      · exact h5 heq.symm
      · exact hw2 hmem2
    simp only [dedupKeyedAux, id]
    rw [if_pos ⟨h3, hw1⟩, if_pos ⟨h4, hcons⟩]

/-- Witness for C9's amended theorem on a concrete actor and city. -/
theorem C9_witness :
    (build_query_variants "Jane" ["Springfield"] []).indexOf "Jane Springfield"
      < (build_query_variants "Jane" ["Springfield"] []).indexOf "Jane alcalde" :=
  (C9_variant_order "Jane" ["Springfield"] [] (by decide)).2.1 "Jane Springfield" "Jane alcalde"
    (by decide) (by decide) (by decide) (by decide) (by decide)
